import Mathlib

set_option linter.unusedSectionVars false

/-!
Verification of rkcommon's `containers::FlatMap<KEY, VALUE>`: a shallow
embedding of the vector-backed associative container and proofs of its
specified properties.  The backing `std::vector<std::pair<KEY, VALUE>>` is
modelled as a `List (K × V)`; iterators into the vector are modelled as
indices (with `none` playing the role of the end iterator); the C++
exceptions that the container can raise are modelled by an explicit
exception value, and fallible operations return `Except`.
-/

namespace rkcommon

/-- Model of the C++ exception hierarchy as far as FlatMap exercises it: the
only exception type any FlatMap operation raises is std::out_of_range. -/
inductive CppExnType where
  | outOfRange
deriving DecidableEq, Repr

/-- A raised C++ exception: its dynamic type together with its what() text. -/
structure CppExn where
  type : CppExnType
  what : String
deriving DecidableEq, Repr

/-- The exception thrown by FlatMap::at on a missing key:
std::out_of_range with message "key wasn't found in FlatMap<>". -/
def keyNotFoundExn : CppExn := ⟨.outOfRange, "key wasn't found in FlatMap<>"⟩

/-- The exception thrown by std::vector::at (used by FlatMap::at_index) on an
out-of-range index: std::out_of_range with an implementation-defined message.
No theorem below depends on the message text, only on the exception type. -/
def vectorAtExn : CppExn := ⟨.outOfRange, "vector::_M_range_check"⟩

/-- Assignment through a reference to the element at index `i` of a vector:
the element is replaced by `f` applied to it; out-of-range indices leave the
list unchanged (no theorem relies on that branch: every reference written
through below is in range). -/
def modifyAt {α : Type} : List α → Nat → (α → α) → List α
  | [], _, _ => []
  | a :: l, 0, f => f a :: l
  | a :: l, n + 1, f => a :: modifyAt l n f

/-- FlatMap<KEY, VALUE>: key/value pairs stored in an underlying vector
(`storage_t values`). -/
structure FlatMap (K V : Type) where
  values : List (K × V)
deriving DecidableEq, Repr

namespace FlatMap

variable {K V : Type} [DecidableEq K] [Inhabited V]

/-- FlatMap's default constructor: the vector starts empty. -/
def init : FlatMap K V := ⟨[]⟩

/-- std::find_if over the stored pairs, comparing `item.first == key`: the
first position whose key equals `key`, returned as its index paired with the
element it points at; `none` models the end iterator.  Embeds the body of
FlatMap::lookup (both overloads have the same body). -/
def lookupAux (k : K) : List (K × V) → Option (Nat × (K × V))
  | [] => none
  | p :: ps =>
      if p.1 = k then some (0, p)
      else (lookupAux k ps).map (fun r => (r.1 + 1, r.2))

/-- FlatMap::lookup(key): find_if over `values`. -/
def lookup (m : FlatMap K V) (k : K) : Option (Nat × (K × V)) :=
  lookupAux k m.values

/-- FlatMap::at (mutable overload): lookup, throw
std::out_of_range("key wasn't found in FlatMap<>") when the iterator is
values.end(), otherwise return itr->second. -/
def atKey (m : FlatMap K V) (k : K) : Except CppExn V :=
  match m.lookup k with
  | none => .error keyNotFoundExn
  | some it => .ok it.2.2

/-- FlatMap::at (const overload; its body is textually identical to the
mutable overload). -/
def atKeyConst (m : FlatMap K V) (k : K) : Except CppExn V :=
  match m.lookup k with
  | none => .error keyNotFoundExn
  | some it => .ok it.2.2

/-- FlatMap::operator[]: lookup; when the iterator is values.end(),
push_back (key, VALUE()) and the returned reference is
values.back().second; otherwise it is itr->second.  The returned VALUE& is
modelled as the index of the pair whose value slot it denotes, together with
the (possibly grown) map. -/
def bracket (m : FlatMap K V) (k : K) : Nat × FlatMap K V :=
  match m.lookup k with
  | none => (m.values.length, ⟨m.values ++ [(k, (default : V))]⟩)
  | some it => (it.1, m)

/-- Writing `v` through a VALUE& that denotes the value slot of the pair at
index `i`. -/
def writeVal (m : FlatMap K V) (i : Nat) (v : V) : FlatMap K V :=
  ⟨modifyAt m.values i (fun p => (p.1, v))⟩

/-- The compound access `m[k] = v`: operator[] yields a reference to the
value slot for `k` (inserting (k, VALUE()) first when the key is absent) and
`v` is then assigned through that reference. -/
def insertAssign (m : FlatMap K V) (k : K) (v : V) : FlatMap K V :=
  writeVal (bracket m k).2 (bracket m k).1 v

/-- FlatMap::at_index: values.at(index), which returns the index-th element
when index < size() and throws std::out_of_range otherwise. -/
def at_index (m : FlatMap K V) (i : Nat) : Except CppExn (K × V) :=
  if h : i < m.values.length then .ok (m.values.get ⟨i, h⟩)
  else .error vectorAtExn

/-- FlatMap::size: values.size(). -/
def size (m : FlatMap K V) : Nat := m.values.length

/-- FlatMap::empty returns values.empty() (a bool; the source's size_t
return type widens it, with `true` becoming 1). -/
def empty (m : FlatMap K V) : Bool := m.values.isEmpty

/-- FlatMap::contains: lookup(key) != values.cend(). -/
def contains (m : FlatMap K V) (k : K) : Bool := (m.lookup k).isSome

/-- FlatMap::erase: std::stable_partition moves the pairs whose key differs
from `key` to the front of the vector, preserving the relative order inside
each group, and returns the partition point; the vector is then resized down
to std::distance(begin, partition point), i.e. truncated to the
non-matching group. -/
def erase (m : FlatMap K V) (k : K) : FlatMap K V :=
  let keep := m.values.filter (fun i => i.1 ≠ k)
  let drop := m.values.filter (fun i => ¬ (i.1 ≠ k))
  ⟨(keep ++ drop).take keep.length⟩

/-- FlatMap::clear: values.clear(). -/
def clear (_m : FlatMap K V) : FlatMap K V := ⟨[]⟩

/-- FlatMap::reserve: values.reserve(size); no effect on the observable
contents. -/
def reserve (m : FlatMap K V) (_n : Nat) : FlatMap K V := m

/-- The state effect of a finite sequence of operator[] calls, one per key
in `ks`, applied left to right. -/
def insertSeq (m : FlatMap K V) (ks : List K) : FlatMap K V :=
  ks.foldl (fun acc k => (bracket acc k).2) m

/-- A finite sequence of erase calls, one per key in `ks`, left to right. -/
def eraseSeq (m : FlatMap K V) (ks : List K) : FlatMap K V :=
  ks.foldl (fun acc k => acc.erase k) m

/-- The sequence of stored keys, in physical order. -/
def keysOf (m : FlatMap K V) : List K := m.values.map Prod.fst

/-- The public API operations of FlatMap; a KEY or index argument is carried
in the constructor. -/
inductive Op (K : Type) where
  | opAt (k : K)
  | opBracket (k : K)
  | opAtIndex (i : Nat)
  | opSize
  | opEmpty
  | opContains (k : K)
  | opErase (k : K)
  | opClear
  | opReserve (n : Nat)
deriving DecidableEq, Repr

/-- Results of the public API operations (a VALUE& result is modelled as the
index of the slot the reference denotes). -/
inductive Res (K V : Type) where
  | rVal (v : V)
  | rRef (i : Nat)
  | rPair (p : K × V)
  | rNat (n : Nat)
  | rBool (b : Bool)
  | rUnit
deriving DecidableEq, Repr

/-- One step of the public API: the result (or the raised exception) paired
with the state of the container after the call; each case is the
corresponding member function, which either mutates the vector and cannot
raise (operator[], erase, clear, reserve) or reads it without mutating
(at, at_index, size, empty, contains). -/
def run (m : FlatMap K V) : Op K → Except CppExn (Res K V) × FlatMap K V
  | .opAt k => ((atKey m k).map Res.rVal, m)
  | .opBracket k => (.ok (.rRef (bracket m k).1), (bracket m k).2)
  | .opAtIndex i => ((at_index m i).map Res.rPair, m)
  | .opSize => (.ok (.rNat (size m)), m)
  | .opEmpty => (.ok (.rBool (empty m)), m)
  | .opContains k => (.ok (.rBool (contains m k)), m)
  | .opErase k => (.ok .rUnit, erase m k)
  | .opClear => (.ok .rUnit, clear m)
  | .opReserve n => (.ok .rUnit, reserve m n)

/-- A concrete container used by the witness theorems. -/
def exMap : FlatMap Nat Nat := ⟨[(1, 10), (2, 20), (3, 30)]⟩

-- Helper lemmas ------------------------------------------------------------

theorem lookupAux_eq_none_iff {k : K} {l : List (K × V)} :
    lookupAux k l = none ↔ ∀ p ∈ l, p.1 ≠ k := by
  induction l with
  | nil => simp [lookupAux]
  | cons p ps ih =>
    by_cases hp : p.1 = k
    · simp [lookupAux, hp]
    · simp [lookupAux, hp, ih]

theorem lookupAux_some_mem {k : K} {l : List (K × V)} {it : Nat × (K × V)}
    (h : lookupAux k l = some it) : it.2 ∈ l ∧ it.2.1 = k := by
  induction l generalizing it with
  | nil => simp [lookupAux] at h
  | cons p ps ih =>
    rw [lookupAux] at h
    by_cases hp : p.1 = k
    · rw [if_pos hp] at h
      injection h with h2
      rw [← h2]
      exact ⟨List.mem_cons_self _ _, hp⟩
    · rw [if_neg hp] at h
      cases ho : lookupAux k ps with
      | none => rw [ho] at h; cases h
      | some r =>
        rw [ho] at h
        injection h with h2
        obtain ⟨hmem, hkey⟩ := ih ho
        rw [← h2]
        exact ⟨List.mem_cons_of_mem _ hmem, hkey⟩

theorem contains_eq_false_iff {m : FlatMap K V} {k : K} :
    contains m k = false ↔ ∀ p ∈ m.values, p.1 ≠ k := by
  unfold contains lookup
  rw [← lookupAux_eq_none_iff]
  cases lookupAux k m.values <;> simp

theorem erase_values (m : FlatMap K V) (k : K) :
    (erase m k).values = m.values.filter (fun p => p.1 ≠ k) := by
  simp only [erase]
  exact List.take_left _ _

theorem mem_keysOf_iff {m : FlatMap K V} {k : K} :
    k ∈ keysOf m ↔ ∃ p ∈ m.values, p.1 = k := by
  simp [keysOf]

theorem lookup_eq_none_of_not_mem {m : FlatMap K V} {k : K}
    (h : k ∉ keysOf m) : m.lookup k = none := by
  rw [lookup, lookupAux_eq_none_iff]
  intro p hp hpk
  exact h (mem_keysOf_iff.mpr ⟨p, hp, hpk⟩)

theorem nodup_keys_bracket {m : FlatMap K V} (k : K)
    (h : (keysOf m).Nodup) : (keysOf ((bracket m k).2)).Nodup := by
  cases ho : m.lookup k with
  | some it =>
      simp only [bracket, ho]
      exact h
  | none =>
      have hk : k ∉ keysOf m := by
        rw [lookup, lookupAux_eq_none_iff] at ho
        rw [mem_keysOf_iff]
        rintro ⟨p, hp, hpk⟩
        exact ho p hp hpk
      simp only [bracket, ho, keysOf, List.map_append, List.map_cons,
        List.map_nil]
      rw [List.nodup_append]
      refine ⟨h, List.nodup_singleton k, ?_⟩
      intro x hx hxk
      rw [List.mem_singleton] at hxk
      exact hk (hxk ▸ hx)

theorem nodup_keys_insertSeq (ks : List K) (m : FlatMap K V)
    (h : (keysOf m).Nodup) : (keysOf (insertSeq m ks)).Nodup := by
  induction ks generalizing m with
  | nil => exact h
  | cons a ks ih => exact ih _ (nodup_keys_bracket a h)

theorem countP_key_le_one_of_nodup {l : List (K × V)}
    (h : (l.map Prod.fst).Nodup) (k : K) :
    l.countP (fun p => p.1 = k) ≤ 1 := by
  induction l with
  | nil => simp
  | cons p ps ih =>
      rw [List.map_cons, List.nodup_cons] at h
      obtain ⟨hnot, hps⟩ := h
      by_cases hp : p.1 = k
      · rw [List.countP_cons_of_pos _ _ (by simpa using hp)]
        have hz : ps.countP (fun q => q.1 = k) = 0 := by
          rw [List.countP_eq_zero]
          intro q hq
          simp only [decide_eq_true_eq]
          intro hqk
          exact hnot (by
            rw [hp, ← hqk]
            exact List.mem_map_of_mem Prod.fst hq)
        rw [hz]
      · rw [List.countP_cons_of_neg _ _ (by simpa using hp)]
        exact ih hps

theorem keysOf_insertSeq_fresh (ks : List K) (m : FlatMap K V)
    (hnodup : ks.Nodup) (hfresh : ∀ x ∈ ks, x ∉ keysOf m) :
    keysOf (insertSeq m ks) = keysOf m ++ ks := by
  induction ks generalizing m with
  | nil => simp [insertSeq]
  | cons a ks ih =>
      rw [List.nodup_cons] at hnodup
      have ha : m.lookup a = none :=
        lookup_eq_none_of_not_mem (hfresh a (List.mem_cons_self _ _))
      have hkeys : keysOf ((bracket m a).2) = keysOf m ++ [a] := by
        simp [bracket, ha, keysOf]
      have hstep : insertSeq m (a :: ks) = insertSeq (bracket m a).2 ks := rfl
      rw [hstep, ih _ hnodup.2 ?_, hkeys, List.append_assoc,
        List.singleton_append]
      intro x hx
      rw [hkeys, List.mem_append, List.mem_singleton]
      rintro (hxm | hxa)
      · exact hfresh x (List.mem_cons_of_mem _ hx) hxm
      · exact hnodup.1 (hxa ▸ hx)

theorem map_fst_filter_key (l : List (K × V)) (k : K) :
    (l.filter (fun p => p.1 ≠ k)).map Prod.fst =
      (l.map Prod.fst).filter (fun x => x ≠ k) := by
  induction l with
  | nil => rfl
  | cons p ps ih =>
      simp only [List.map_cons, List.filter_cons]
      by_cases hp : p.1 = k
      · rw [if_neg (by simp [hp]), if_neg (by simp [hp])]
        exact ih
      · rw [if_pos (by simp [hp]), if_pos (by simp [hp]), List.map_cons, ih]

theorem keysOf_erase (m : FlatMap K V) (k : K) :
    keysOf (erase m k) = (keysOf m).filter (fun x => x ≠ k) := by
  rw [keysOf, erase_values, map_fst_filter_key, keysOf]

theorem length_filter_ne_of_nodup {ks : List K} {k : K}
    (h : ks.Nodup) (hm : k ∈ ks) :
    (ks.filter (fun x => x ≠ k)).length + 1 = ks.length := by
  induction ks with
  | nil => cases hm
  | cons a l ih =>
      rw [List.nodup_cons] at h
      by_cases ha : a = k
      · have hfe : List.filter (fun x => x ≠ k) l = l :=
          List.filter_eq_self.mpr (fun x hx =>
            decide_eq_true (fun hxk : x = k =>
              h.1 ((hxk.trans ha.symm) ▸ hx)))
        rw [List.filter_cons_of_neg (by simp [ha]), hfe, List.length_cons]
      · rw [List.filter_cons_of_pos (by simpa using ha)]
        have hm2 : k ∈ l := by
          rcases List.mem_cons.mp hm with hka | hkl
          · exact absurd hka.symm ha
          · exact hkl
        rw [List.length_cons, List.length_cons, ih h.2 hm2]

theorem size_erase_of_mem {m : FlatMap K V} {k : K}
    (hn : (keysOf m).Nodup) (hm : k ∈ keysOf m) :
    size (erase m k) + 1 = size m := by
  have h1 : size (erase m k) = (keysOf (erase m k)).length := by
    rw [size, keysOf, List.length_map]
  have h2 : size m = (keysOf m).length := by
    rw [size, keysOf, List.length_map]
  rw [h1, h2, keysOf_erase]
  exact length_filter_ne_of_nodup hn hm

theorem size_eraseSeq (del : List K) (m : FlatMap K V)
    (hd : del.Nodup) (hsub : ∀ x ∈ del, x ∈ keysOf m)
    (hn : (keysOf m).Nodup) :
    size (eraseSeq m del) + del.length = size m := by
  induction del generalizing m with
  | nil => simp [eraseSeq]
  | cons a del ih =>
      rw [List.nodup_cons] at hd
      have hne : keysOf (erase m a) = (keysOf m).filter (fun x => x ≠ a) :=
        keysOf_erase m a
      have hn2 : (keysOf (erase m a)).Nodup := by
        rw [hne]
        exact hn.filter _
      have hsub2 : ∀ x ∈ del, x ∈ keysOf (erase m a) := by
        intro x hx
        rw [hne, List.mem_filter]
        refine ⟨hsub x (List.mem_cons_of_mem _ hx), ?_⟩
        exact decide_eq_true (fun hxa : x = a => hd.1 (hxa ▸ hx))
      have hrec := ih _ hd.2 hsub2 hn2
      have hone := size_erase_of_mem hn (hsub a (List.mem_cons_self _ _))
      have hstep : eraseSeq m (a :: del) = eraseSeq (erase m a) del := rfl
      rw [hstep, List.length_cons]
      omega

theorem lookupAux_cons_ne {p : K × V} {l : List (K × V)} {k : K}
    (hp : p.1 ≠ k) :
    lookupAux k (p :: l) = (lookupAux k l).map (fun r => (r.1 + 1, r.2)) := by
  rw [lookupAux, if_neg hp]

theorem insertAssign_cons_ne {p : K × V} {l : List (K × V)} {k : K} {v : V}
    (hp : p.1 ≠ k) :
    (insertAssign (⟨p :: l⟩ : FlatMap K V) k v).values =
      p :: (insertAssign (⟨l⟩ : FlatMap K V) k v).values := by
  cases ho : lookupAux k l with
  | none =>
      have hc : lookupAux k (p :: l) = none := by
        rw [lookupAux_cons_ne hp, ho, Option.map_none']
      simp [insertAssign, bracket, lookup, hc, ho, writeVal, modifyAt]
  | some r =>
      have hc : lookupAux k (p :: l) = some (r.1 + 1, r.2) := by
        rw [lookupAux_cons_ne hp, ho, Option.map_some']
      simp [insertAssign, bracket, lookup, hc, ho, writeVal, modifyAt]

theorem atKey_cons_ne {p : K × V} {l : List (K × V)} {k : K} (hp : p.1 ≠ k) :
    atKey (⟨p :: l⟩ : FlatMap K V) k = atKey (⟨l⟩ : FlatMap K V) k := by
  unfold atKey lookup
  rw [lookupAux_cons_ne hp]
  cases lookupAux k l <;> simp

-- Claim theorems ------------------------------------------------------------

/-- C1: after the insert-or-assign compound `m[k] = v` (operator[] followed
by assignment through the returned reference), the fail-fast accessor at(k)
succeeds and returns v. -/
theorem insert_assign_round_trip (m : FlatMap K V) (k : K) (v : V) :
    atKey (insertAssign m k v) k = .ok v := by
  obtain ⟨l⟩ := m
  induction l with
  | nil =>
      simp [insertAssign, bracket, lookup, lookupAux, writeVal, modifyAt,
        atKey]
  | cons p l ih =>
      by_cases hp : p.1 = k
      · simp [insertAssign, bracket, lookup, lookupAux, hp, writeVal,
          modifyAt, atKey]
      · have h1 : insertAssign (⟨p :: l⟩ : FlatMap K V) k v =
            ⟨p :: (insertAssign (⟨l⟩ : FlatMap K V) k v).values⟩ :=
          congrArg FlatMap.mk (insertAssign_cons_ne hp)
        rw [h1, atKey_cons_ne hp]
        exact ih

/-- C2: after erase(k), contains(k) is false; every pair whose key differs
from k survives with the same value and in the same relative order (the
stored sequence becomes exactly the stable filter of the non-matching
pairs); and erase(k) on a container not containing k is a no-op (and, by
the type of `erase`, never fails). -/
theorem erase_correct (m : FlatMap K V) (k : K) :
    contains (erase m k) k = false ∧
    (erase m k).values = m.values.filter (fun p => p.1 ≠ k) ∧
    (contains m k = false → erase m k = m) := by
  refine ⟨?_, erase_values m k, ?_⟩
  · rw [contains_eq_false_iff, erase_values]
    intro p hp
    exact of_decide_eq_true (List.mem_filter.mp hp).2
  · intro h
    rw [contains_eq_false_iff] at h
    have hv : (erase m k).values = m.values := by
      rw [erase_values]
      exact List.filter_eq_self.mpr (fun p hp => decide_eq_true (h p hp))
    cases m
    exact congrArg FlatMap.mk hv

/-- C2 witness: a concrete instance of erase correctness, with the no-op
hypothesis discharged on a key that is absent. -/
theorem erase_correct_witness :
    contains (erase exMap 2) 2 = false ∧
    (erase exMap 2).values = exMap.values.filter (fun p => p.1 ≠ 2) ∧
    erase exMap 7 = exMap :=
  ⟨(erase_correct exMap 2).1, (erase_correct exMap 2).2.1,
    (erase_correct exMap 7).2.2 (by decide)⟩

/-- C5: the fail-fast accessor at(k), in both its mutable and const
variants, fails with the NotFound exception exactly when no stored pair has
key k, and returns the value of a stored pair with key k when one exists. -/
theorem at_raises_iff (m : FlatMap K V) (k : K) :
    (atKey m k = .error keyNotFoundExn ↔ ∀ p ∈ m.values, p.1 ≠ k) ∧
    (atKeyConst m k = .error keyNotFoundExn ↔ ∀ p ∈ m.values, p.1 ≠ k) ∧
    ((∃ p ∈ m.values, p.1 = k) →
      ∃ p, p ∈ m.values ∧ p.1 = k ∧ atKey m k = .ok p.2 ∧
        atKeyConst m k = .ok p.2) := by
  unfold atKey atKeyConst lookup
  cases ho : lookupAux k m.values with
  | none =>
    rw [lookupAux_eq_none_iff] at ho
    refine ⟨by simpa using ho, by simpa using ho, ?_⟩
    rintro ⟨p, hp, hk⟩
    exact absurd hk (ho p hp)
  | some it =>
    obtain ⟨hmem, hkey⟩ := lookupAux_some_mem ho
    refine ⟨?_, ?_, ?_⟩
    · simp only [reduceCtorEq, false_iff]
      intro hall
      exact hall it.2 hmem hkey
    · simp only [reduceCtorEq, false_iff]
      intro hall
      exact hall it.2 hmem hkey
    · intro _
      exact ⟨it.2, hmem, hkey, rfl, rfl⟩

/-- C5 witness: on a concrete container, at on an absent key fails with
NotFound (both variants) and at on a present key returns its value. -/
theorem at_raises_iff_witness :
    atKey exMap 7 = .error keyNotFoundExn ∧
    atKeyConst exMap 7 = .error keyNotFoundExn ∧
    ∃ p, p ∈ exMap.values ∧ p.1 = 2 ∧ atKey exMap 2 = .ok p.2 ∧
      atKeyConst exMap 2 = .ok p.2 :=
  ⟨(at_raises_iff exMap 7).1.mpr (by decide),
    (at_raises_iff exMap 7).2.1.mpr (by decide),
    (at_raises_iff exMap 2).2.2 ⟨(2, 20), by decide, by decide⟩⟩

/-- C6: at_index(i) returns the i-th stored pair (physical order) when
i < size(), and fails with the IndexOutOfRange exception for every
i ≥ size(). -/
theorem at_index_bounds (m : FlatMap K V) (i : Nat) :
    (∀ h : i < size m, at_index m i = .ok (m.values.get ⟨i, h⟩)) ∧
    (size m ≤ i → at_index m i = .error vectorAtExn) := by
  constructor
  · intro h
    exact dif_pos h
  · intro h
    exact dif_neg (Nat.not_lt.mpr h)

/-- C6 witness: concrete in-range and out-of-range accesses, including
index 0 on an empty container. -/
theorem at_index_bounds_witness :
    at_index exMap 1 = .ok ((2, 20) : Nat × Nat) ∧
    at_index exMap 3 = .error vectorAtExn ∧
    at_index (init : FlatMap Nat Nat) 0 = .error vectorAtExn :=
  ⟨(at_index_bounds exMap 1).1 (by decide),
    (at_index_bounds exMap 3).2 (by decide),
    (at_index_bounds (init : FlatMap Nat Nat) 0).2 (by decide)⟩

/-- C9: clear() leaves the container with size() = 0 and empty() = true, and
a second clear() produces exactly the same (empty) state. -/
theorem clear_idempotent (m : FlatMap K V) :
    size (clear m) = 0 ∧ empty (clear m) = true ∧ clear (clear m) = clear m :=
  ⟨rfl, rfl, rfl⟩

/-- C10: operator[](k) on a hit leaves the stored sequence of pairs
completely unchanged, and on a miss changes it only by appending the single
pair (k, default-constructed VALUE) at the end. -/
theorem bracket_frame (m : FlatMap K V) (k : K) :
    (contains m k = true → (bracket m k).2 = m) ∧
    (contains m k = false → (bracket m k).2 =
      ⟨m.values ++ [(k, (default : V))]⟩) := by
  unfold contains bracket lookup
  cases lookupAux k m.values <;> simp

/-- C10 witness: a hit leaves the concrete container unchanged; a miss
appends (7, 0). -/
theorem bracket_frame_witness :
    (bracket exMap 2).2 = exMap ∧
    (bracket exMap 7).2 = ⟨exMap.values ++ [(7, 0)]⟩ :=
  ⟨(bracket_frame exMap 2).1 (by decide),
    (bracket_frame exMap 7).2 (by decide)⟩

/-- C3: starting from the empty container, after any finite sequence of
operator[] calls (and no direct index-based mutation) the stored sequence
holds at most one pair with any given key. -/
theorem get_or_insert_unique (ks : List K) (k : K) :
    ((insertSeq (init : FlatMap K V) ks).values.countP
      (fun p => p.1 = k)) ≤ 1 := by
  have hbase : (keysOf (init : FlatMap K V)).Nodup := by
    simp [keysOf, init]
  exact countP_key_le_one_of_nodup
    (nodup_keys_insertSeq ks (init : FlatMap K V) hbase) k

/-- C4: from the empty container, after inserting n pairwise-distinct keys
through operator[] and erasing m distinct previously-inserted keys, size()
is exactly n - m. -/
theorem size_accounting (ins del : List K) (hins : ins.Nodup)
    (hdel : del.Nodup) (hsub : ∀ x ∈ del, x ∈ ins) :
    size (eraseSeq (insertSeq (init : FlatMap K V) ins) del) =
      ins.length - del.length := by
  have hkeys : keysOf (insertSeq (init : FlatMap K V) ins) = ins := by
    have h := keysOf_insertSeq_fresh ins (init : FlatMap K V) hins
      (fun x _ hx => by simp [keysOf, init] at hx)
    simpa [keysOf, init] using h
  have hs : size (insertSeq (init : FlatMap K V) ins) = ins.length := by
    have h := congrArg List.length hkeys
    rw [keysOf, List.length_map] at h
    rw [size, h]
  have h := size_eraseSeq del (insertSeq (init : FlatMap K V) ins) hdel
    (by rw [hkeys]; exact hsub) (by rw [hkeys]; exact hins)
  omega

/-- C4 witness: three distinct insertions and one erasure leave size 2. -/
theorem size_accounting_witness :
    size (eraseSeq (insertSeq (init : FlatMap Nat Nat) [1, 2, 3]) [2]) =
      3 - 1 :=
  size_accounting [1, 2, 3] [2] (by decide) (by decide) (by decide)

/-- C8: every public API operation either fully completes or fails with the
container state unchanged; operator[] never fails. -/
theorem atomic_on_failure (m : FlatMap K V) (op : Op K) :
    (∀ e, (run m op).1 = .error e → (run m op).2 = m) ∧
    (∀ k, ∃ r, (run m (Op.opBracket k)).1 = .ok r) := by
  constructor
  · intro e he
    cases op <;> first | rfl | (exfalso; simp [run] at he)
  · intro k
    exact ⟨_, rfl⟩

/-- C8 witness: a failing index access leaves the concrete container
unchanged, and operator[] on a fresh key succeeds. -/
theorem atomic_on_failure_witness :
    (run exMap (Op.opAtIndex 5)).2 = exMap ∧
    ∃ r, (run exMap (Op.opBracket 7)).1 = .ok r :=
  ⟨(atomic_on_failure exMap (Op.opAtIndex 5)).1 vectorAtExn rfl,
    (atomic_on_failure exMap (Op.opAtIndex 5)).2 7⟩

/-- C7 counterexample: the two failure paths are not distinct typed error
kinds: on a concrete input, the exception raised by at on an absent key and
the exception raised by at_index out of range carry the same C++ exception
type, std::out_of_range. -/
theorem error_kinds_counterexample :
    atKey (init : FlatMap Nat Nat) 0 = .error keyNotFoundExn ∧
    at_index (init : FlatMap Nat Nat) 0 = .error vectorAtExn ∧
    keyNotFoundExn.type = vectorAtExn.type :=
  ⟨rfl, rfl, rfl⟩

/-- C7 amended: errors arise from exactly two situations — fail-fast key
access on an absent key (the NotFound exception) and index access out of
range (the vector::at exception) — and no other operation raises; but the
two exceptions share the single C++ exception type std::out_of_range
instead of being distinct typed kinds. -/
theorem error_kinds_amended (m : FlatMap K V) :
    keyNotFoundExn.type = vectorAtExn.type ∧
    ∀ op e, (run m op).1 = .error e →
      e.type = CppExnType.outOfRange ∧
      ((∃ k, op = Op.opAt k ∧ contains m k = false) ∨
        (∃ i, op = Op.opAtIndex i ∧ size m ≤ i)) := by
  refine ⟨rfl, ?_⟩
  intro op e he
  cases op with
  | opAt k =>
      have hat : (atKey m k).map Res.rVal = Except.error e := he
      cases ho : m.lookup k with
      | some it =>
          rw [atKey, ho] at hat
          exact Except.noConfusion hat
      | none =>
          rw [atKey, ho] at hat
          have h3 : (Except.error keyNotFoundExn : Except CppExn (Res K V)) =
              Except.error e := hat
          injection h3 with h2
          subst h2
          refine ⟨rfl, Or.inl ⟨k, rfl, ?_⟩⟩
          rw [contains, ho]
          rfl
  | opAtIndex i =>
      have hat : (at_index m i).map Res.rPair = Except.error e := he
      by_cases hi : i < m.values.length
      · rw [at_index, dif_pos hi] at hat
        exact Except.noConfusion hat
      · rw [at_index, dif_neg hi] at hat
        have h3 : (Except.error vectorAtExn : Except CppExn (Res K V)) =
            Except.error e := hat
        injection h3 with h2
        subst h2
        exact ⟨rfl, Or.inr ⟨i, rfl, Nat.not_lt.mp hi⟩⟩
  | opBracket k => exact Except.noConfusion he
  | opSize => exact Except.noConfusion he
  | opEmpty => exact Except.noConfusion he
  | opContains k => exact Except.noConfusion he
  | opErase k => exact Except.noConfusion he
  | opClear => exact Except.noConfusion he
  | opReserve n => exact Except.noConfusion he

/-- C7 amended witness: the failing fail-fast access at key 7 on the
concrete container produces an out_of_range-typed error attributed to an
absent-key access. -/
theorem error_kinds_amended_witness :
    keyNotFoundExn.type = CppExnType.outOfRange ∧
    ((∃ k, Op.opAt (7 : Nat) = Op.opAt k ∧ contains exMap k = false) ∨
      (∃ i, Op.opAt (7 : Nat) = Op.opAtIndex i ∧ size exMap ≤ i)) :=
  (error_kinds_amended exMap).2 (Op.opAt 7) keyNotFoundExn rfl

end FlatMap

end rkcommon
